import Mathlib

/-!
Verification of the kanji/kana furigana alignment core
(`furigana-service/alignment.py`): character classification, run
segmentation, katakana→hiragana normalization, and the reading-alignment
engine `align_furigana`.  Strings are modelled as `List Char` (Python
strings are sequences of code points); Python's total slice semantics
`s[a:b]` is modelled by `pySlice`, and `str.find(sub, start)` by
`strFind` returning `Option Nat` (Python's `-1` becomes `none`).
-/

set_option maxRecDepth 10000

/-- Embedding of `is_kanji`: CJK ideograph block membership by code point.
(The Python guard `if not char` handles only the empty string, which cannot
arise for a single `Char`.) -/
def is_kanji (c : Char) : Bool :=
  let code := c.toNat
  decide ((0x4E00 ≤ code ∧ code ≤ 0x9FFF) ∨
    (0x3400 ≤ code ∧ code ≤ 0x4DBF) ∨
    (0x20000 ≤ code ∧ code ≤ 0x2A6DF) ∨
    (0x2A700 ≤ code ∧ code ≤ 0x2B73F) ∨
    (0x2B740 ≤ code ∧ code ≤ 0x2B81F) ∨
    (0x2B820 ≤ code ∧ code ≤ 0x2CEAF) ∨
    (0xF900 ≤ code ∧ code ≤ 0xFAFF) ∨
    (0x2F800 ≤ code ∧ code ≤ 0x2FA1F))

/-- Embedding of `is_hiragana`: code point in 3040–309F. -/
def is_hiragana (c : Char) : Bool :=
  decide (0x3040 ≤ c.toNat ∧ c.toNat ≤ 0x309F)

/-- Embedding of `is_katakana`: code point in 30A0–30FF. -/
def is_katakana (c : Char) : Bool :=
  decide (0x30A0 ≤ c.toNat ∧ c.toNat ≤ 0x30FF)

/-- Embedding of `is_kana`: hiragana or katakana. -/
def is_kana (c : Char) : Bool :=
  is_hiragana c || is_katakana c

/-- The three run categories used by `segment_surface` (the Python code uses
the string tags KANJI / KANA / OTHER; the spec calls them IDEOGRAPH /
SYLLABARY / OTHER). -/
inductive SegType where
  | KANJI : SegType
  | KANA : SegType
  | OTHER : SegType
deriving DecidableEq, Repr

/-- The character classification performed inline in `segment_surface`
(`if is_kanji ... elif is_kana ... else OTHER`). -/
def charType (c : Char) : SegType :=
  if is_kanji c then SegType.KANJI
  else if is_kana c then SegType.KANA
  else SegType.OTHER

/-- A run: `(text, type)` tuple as produced by `segment_surface`. -/
abbrev Run := List Char × SegType

/-- The accumulation loop of `segment_surface`: `current_text`/`current_type`
hold the run under construction, `rest` is the unread remainder of the
surface. -/
def segLoop : List Char → List Char → SegType → List Run
  | [], currentText, currentType => [(currentText, currentType)]
  | c :: cs, currentText, currentType =>
    if charType c = currentType then
      segLoop cs (currentText ++ [c]) currentType
    else
      (currentText, currentType) :: segLoop cs [c] (charType c)

/-- Embedding of `segment_surface`: split a surface into maximal runs of one
category. -/
def segment_surface (surface : List Char) : List Run :=
  match surface with
  | [] => []
  | c :: cs => segLoop cs [c] (charType c)

/-- The per-character body of `to_hiragana`: katakana code points are shifted
down by 0x60 (`chr(ord(char) - 0x60)`), everything else passes through. -/
def to_hiragana_char (c : Char) : Char :=
  if is_katakana c then Char.ofNat (c.toNat - 0x60) else c

/-- Embedding of `to_hiragana`: character-wise katakana→hiragana
normalization. -/
def to_hiragana (text : List Char) : List Char :=
  text.map to_hiragana_char

/-- Python slice `s[a:b]` for natural indices: total, clamping at the ends
and yielding `[]` when `b ≤ a`. -/
def pySlice (s : List Char) (a b : Nat) : List Char :=
  (s.drop a).take (b - a)

/-- Index of the first occurrence of `sub` in `hay` (`str.find` without a
start offset), as an `Option`. -/
def findIdx : List Char → List Char → Option Nat
  | [], sub => if sub = [] then some 0 else none
  | c :: cs, sub =>
    if (c :: cs).take sub.length = sub then some 0
    else (findIdx cs sub).map (fun k => k + 1)

/-- Embedding of Python `hay.find(sub, start)`: first occurrence of `sub` in
`hay` at index ≥ `start`, `none` for Python's `-1`. -/
def strFind (hay sub : List Char) (start : Nat) : Option Nat :=
  if start ≤ hay.length then
    (findIdx (hay.drop start) sub).map (fun k => k + start)
  else none

/-- `if i + 1 < len(segments) and segments[i + 1][1] == 'KANA'`: the text of
the head of `rest` when it exists and is a KANA run. -/
def nextKanaOf : List Run → Option (List Char)
  | (t2, SegType.KANA) :: _ => some t2
  | _ => none

/-- Embedding of the look-ahead loop inside `align_furigana`'s KANJI branch:
walk `segments` accumulating the concatenation of the texts seen so far
(`prefixAcc` plays the role of `segments[:i]` joined), stop at the first index
whose accumulated prefix equals `target` (= the joined `result`), and return the text
of the next segment when that next segment exists and is KANA. -/
def findNext (prefixAcc : List Char) : List Run → List Char → Option (List Char)
  | [], _ => none
  | (t, _) :: rest, target =>
    if prefixAcc = target then nextKanaOf rest
    else findNext (prefixAcc ++ t) rest target

/-- The main loop of `align_furigana`'s general case: iterate over the
remaining segments, carrying the emitted pieces (`result`) and the reading
cursor (`reading_pos`).  `segsAll` is the full segment list, needed by the
look-ahead's prefix reconstruction.  The guard `nextKana = []` mirrors
Python's `if next_kana:` being false on the empty string. -/
def alignLoop (segsAll : List Run) (reading : List Char)
    (result : List (List Char)) (pos : Nat) :
    List Run → List (List Char) × Nat
  | [] => (result, pos)
  | (text, SegType.KANJI) :: rest =>
    match findNext [] segsAll result.flatten with
    | some nextKana =>
      if nextKana = [] then
        alignLoop segsAll reading
          (result ++ [text ++ '[' :: (reading.drop pos ++ [']'])])
          reading.length rest
      else
        match strFind reading (to_hiragana nextKana) pos with
        | some p =>
          alignLoop segsAll reading
            (result ++ [text ++ '[' :: (pySlice reading pos p ++ [']'])])
            p rest
        | none =>
          alignLoop segsAll reading
            (result ++ [text ++ '[' :: (reading.drop pos ++ [']'])])
            reading.length rest
    | none =>
      alignLoop segsAll reading
        (result ++ [text ++ '[' :: (reading.drop pos ++ [']'])])
        reading.length rest
  | (text, SegType.KANA) :: rest =>
    if pySlice reading pos (pos + (to_hiragana text).length) = to_hiragana text then
      alignLoop segsAll reading (result ++ [text])
        (pos + (to_hiragana text).length) rest
    else
      alignLoop segsAll reading (result ++ [text]) pos rest
  | (text, SegType.OTHER) :: rest =>
    alignLoop segsAll reading (result ++ [text]) pos rest

/-- `len(segments) == 1 and segments[0][1] == 'KANJI'`. -/
def singleKanjiRun : List Run → Bool
  | [(_, SegType.KANJI)] => true
  | _ => false

/-- Embedding of `align_furigana(surface, reading, is_jukujikun)`. -/
def align_furigana (surface reading0 : List Char) (is_jukujikun : Bool) :
    List Char :=
  if surface = [] ∨ reading0 = [] then surface
  else
    let reading := to_hiragana reading0
    let segments := segment_surface surface
    if segments.all
        (fun seg => decide (seg.2 = SegType.KANA ∨ seg.2 = SegType.OTHER)) then
      surface
    else if is_jukujikun && singleKanjiRun segments then
      surface ++ '[' :: (reading ++ [']'])
    else if singleKanjiRun segments then
      surface ++ '[' :: (reading ++ [']'])
    else
      (alignLoop segments reading [] 0 segments).1.flatten

/-- General-case loop as the specification describes it (§4.4 step 6): a
single integer cursor walked left to right, the look-ahead inspecting the
*next run in the list* rather than reconstructing the current position from
the emitted output.  Used to state claims that compare the code's behavior
with the spec's description. -/
def specAlignLoop (reading : List Char) : Nat → List Run → List Char
  | _, [] => []
  | pos, (text, SegType.KANJI) :: rest =>
    match rest with
    | (ntext, SegType.KANA) :: _ =>
      match strFind reading (to_hiragana ntext) pos with
      | some p =>
        (text ++ '[' :: (pySlice reading pos p ++ [']'])) ++
          specAlignLoop reading p rest
      | none =>
        (text ++ '[' :: (reading.drop pos ++ [']'])) ++
          specAlignLoop reading reading.length rest
    | _ =>
      (text ++ '[' :: (reading.drop pos ++ [']'])) ++
        specAlignLoop reading reading.length rest
  | pos, (text, SegType.KANA) :: rest =>
    if pySlice reading pos (pos + (to_hiragana text).length) = to_hiragana text then
      text ++ specAlignLoop reading (pos + (to_hiragana text).length) rest
    else
      text ++ specAlignLoop reading pos rest
  | pos, (text, SegType.OTHER) :: rest =>
    text ++ specAlignLoop reading pos rest

/-- `align` as the specification describes it: identical to `align_furigana`
except that the general case uses `specAlignLoop`. -/
def align_furigana_spec (surface reading0 : List Char) (is_jukujikun : Bool) :
    List Char :=
  if surface = [] ∨ reading0 = [] then surface
  else
    let reading := to_hiragana reading0
    let segments := segment_surface surface
    if segments.all
        (fun seg => decide (seg.2 = SegType.KANA ∨ seg.2 = SegType.OTHER)) then
      surface
    else if is_jukujikun && singleKanjiRun segments then
      surface ++ '[' :: (reading ++ [']'])
    else if singleKanjiRun segments then
      surface ++ '[' :: (reading ++ [']'])
    else
      specAlignLoop reading 0 segments

/-- Scanner for `stripAnnotations`: when the flag is `false` characters are
copied until a `'['` switches the flag on; while the flag is `true`
characters are dropped until a `']'` switches it off. -/
def stripAux : Bool → List Char → List Char
  | _, [] => []
  | false, c :: cs =>
    if c = '[' then stripAux true cs else c :: stripAux false cs
  | true, c :: cs =>
    if c = ']' then stripAux false cs else stripAux true cs

/-- Remove every bracket annotation `[...]` from a string: on `'['`, drop
through the matching (first following) `']'`; all other characters are
kept. -/
def stripAnnotations (s : List Char) : List Char :=
  stripAux false s

/-- Bounds-checked slice: errors when the start index lies beyond the end of
the string (in Python this situation is silently total; the checked variant
is used to prove that the alignment code never reaches it). -/
def sliceE (s : List Char) (a b : Nat) : Except String (List Char) :=
  if a ≤ s.length then Except.ok ((s.drop a).take (b - a))
  else Except.error "slice start out of range"

/-- Bounds-checked `s[a:]`. -/
def dropE (s : List Char) (a : Nat) : Except String (List Char) :=
  if a ≤ s.length then Except.ok (s.drop a)
  else Except.error "drop start out of range"

/-- `alignLoop` with every access to the reading routed through the
bounds-checked slices: the loop errors if the internal cursor ever escapes
the reading.  Used to prove the code's totality/fail-closed claim. -/
def alignLoopE (segsAll : List Run) (reading : List Char)
    (result : List (List Char)) (pos : Nat) :
    List Run → Except String (List (List Char) × Nat)
  | [] => Except.ok (result, pos)
  | (text, SegType.KANJI) :: rest =>
    match findNext [] segsAll result.flatten with
    | some nextKana =>
      if nextKana = [] then
        match dropE reading pos with
        | Except.ok tail =>
          alignLoopE segsAll reading
            (result ++ [text ++ '[' :: (tail ++ [']'])]) reading.length rest
        | Except.error e => Except.error e
      else
        match strFind reading (to_hiragana nextKana) pos with
        | some p =>
          match sliceE reading pos p with
          | Except.ok sl =>
            alignLoopE segsAll reading
              (result ++ [text ++ '[' :: (sl ++ [']'])]) p rest
          | Except.error e => Except.error e
        | none =>
          match dropE reading pos with
          | Except.ok tail =>
            alignLoopE segsAll reading
              (result ++ [text ++ '[' :: (tail ++ [']'])]) reading.length rest
          | Except.error e => Except.error e
    | none =>
      match dropE reading pos with
      | Except.ok tail =>
        alignLoopE segsAll reading
          (result ++ [text ++ '[' :: (tail ++ [']'])]) reading.length rest
      | Except.error e => Except.error e
  | (text, SegType.KANA) :: rest =>
    match sliceE reading pos (pos + (to_hiragana text).length) with
    | Except.ok sl =>
      if sl = to_hiragana text then
        alignLoopE segsAll reading (result ++ [text])
          (pos + (to_hiragana text).length) rest
      else
        alignLoopE segsAll reading (result ++ [text]) pos rest
    | Except.error e => Except.error e
  | (text, SegType.OTHER) :: rest =>
    alignLoopE segsAll reading (result ++ [text]) pos rest

/-- `align_furigana` with the bounds-checked general-case loop. -/
def align_furiganaE (surface reading0 : List Char) (is_jukujikun : Bool) :
    Except String (List Char) :=
  if surface = [] ∨ reading0 = [] then Except.ok surface
  else
    let reading := to_hiragana reading0
    let segments := segment_surface surface
    if segments.all
        (fun seg => decide (seg.2 = SegType.KANA ∨ seg.2 = SegType.OTHER)) then
      Except.ok surface
    else if is_jukujikun && singleKanjiRun segments then
      Except.ok (surface ++ '[' :: (reading ++ [']']))
    else if singleKanjiRun segments then
      Except.ok (surface ++ '[' :: (reading ++ [']']))
    else
      match alignLoopE segments reading [] 0 segments with
      | Except.ok (result, _) => Except.ok result.flatten
      | Except.error e => Except.error e

/-- Shape of a piece emitted by the general-case loop for a run with text
`t`: either the run text verbatim, or the run text followed by one bracket
annotation whose body contains no `']'`. -/
def goodPiece (p t : List Char) : Prop :=
  (p = t ∧ '[' ∉ t) ∨
    ∃ r, p = t ++ '[' :: (r ++ [']']) ∧ '[' ∉ t ∧ ']' ∉ r

theorem char_toNat_ofNat_of_valid (n : Nat) (h : n.isValidChar) :
    (Char.ofNat n).toNat = n := by
  rw [Char.ofNat, dif_pos h]
  rfl

theorem to_hiragana_char_toNat_of_katakana {c : Char}
    (h : is_katakana c = true) :
    (to_hiragana_char c).toNat = c.toNat - 0x60 := by
  have hc : 0x30A0 ≤ c.toNat ∧ c.toNat ≤ 0x30FF := by
    simpa [is_katakana] using h
  have hv : (c.toNat - 0x60).isValidChar := Or.inl (by omega)
  simp only [to_hiragana_char, h, if_true]
  exact char_toNat_ofNat_of_valid _ hv

theorem to_hiragana_char_of_not_katakana {c : Char}
    (h : is_katakana c = false) : to_hiragana_char c = c := by
  simp [to_hiragana_char, h]

theorem is_hiragana_to_hiragana_char_of_katakana {c : Char}
    (h : is_katakana c = true) :
    is_hiragana (to_hiragana_char c) = true := by
  have hc : 0x30A0 ≤ c.toNat ∧ c.toNat ≤ 0x30FF := by
    simpa [is_katakana] using h
  have ht := to_hiragana_char_toNat_of_katakana h
  simp only [is_hiragana, ht, decide_eq_true_eq]
  omega

theorem is_katakana_to_hiragana_char (c : Char) :
    is_katakana (to_hiragana_char c) = false := by
  by_cases h : is_katakana c = true
  · have hc : 0x30A0 ≤ c.toNat ∧ c.toNat ≤ 0x30FF := by
      simpa [is_katakana] using h
    have ht := to_hiragana_char_toNat_of_katakana h
    simp only [is_katakana, ht, decide_eq_false_iff_not]
    omega
  · rw [to_hiragana_char_of_not_katakana (by simpa using h)]
    simpa using h

theorem to_hiragana_char_idem (c : Char) :
    to_hiragana_char (to_hiragana_char c) = to_hiragana_char c :=
  to_hiragana_char_of_not_katakana (is_katakana_to_hiragana_char c)

theorem mem_of_mem_to_hiragana_of_not_hiragana {c : Char} {r : List Char}
    (hc : c ∈ to_hiragana r) (h : is_hiragana c = false) : c ∈ r := by
  obtain ⟨d, hd, hmap⟩ := List.mem_map.1 hc
  by_cases hk : is_katakana d = true
  · exfalso
    have := is_hiragana_to_hiragana_char_of_katakana hk
    rw [hmap] at this
    rw [this] at h
    exact Bool.true_eq_false.mp h
  · rw [to_hiragana_char_of_not_katakana (by simpa using hk)] at hmap
    exact hmap ▸ hd

theorem segLoop_flatten : ∀ (rest cur : List Char) (ty : SegType),
    ((segLoop rest cur ty).map Prod.fst).flatten = cur ++ rest := by
  intro rest
  induction rest with
  | nil => intro cur ty; simp [segLoop]
  | cons c cs ih =>
    intro cur ty
    by_cases h : charType c = ty
    · simp [segLoop, h, ih]
    · simp [segLoop, h, ih]

theorem segment_surface_flatten (s : List Char) :
    ((segment_surface s).map Prod.fst).flatten = s := by
  cases s with
  | nil => simp [segment_surface]
  | cons c cs => simp [segment_surface, segLoop_flatten]

theorem segLoop_ne_nil : ∀ (rest cur : List Char) (ty : SegType),
    cur ≠ [] → ∀ p ∈ segLoop rest cur ty, p.1 ≠ [] := by
  intro rest
  induction rest with
  | nil =>
    intro cur ty hcur p hp
    simp [segLoop] at hp
    subst hp; exact hcur
  | cons c cs ih =>
    intro cur ty hcur p hp
    by_cases h : charType c = ty
    · rw [segLoop, if_pos h] at hp
      exact ih _ _ (by simp) p hp
    · rw [segLoop, if_neg h] at hp
      rcases List.mem_cons.1 hp with h1 | h2
      · subst h1; exact hcur
      · exact ih _ _ (by simp) p h2

theorem segLoop_types : ∀ (rest cur : List Char) (ty : SegType),
    (∀ c ∈ cur, charType c = ty) →
    ∀ p ∈ segLoop rest cur ty, ∀ c ∈ p.1, charType c = p.2 := by
  intro rest
  induction rest with
  | nil =>
    intro cur ty hcur p hp
    simp [segLoop] at hp
    subst hp; exact hcur
  | cons c cs ih =>
    intro cur ty hcur p hp
    by_cases h : charType c = ty
    · rw [segLoop, if_pos h] at hp
      refine ih _ _ ?_ p hp
      intro d hd
      rcases List.mem_append.1 hd with h1 | h2
      · exact hcur d h1
      · simp at h2; subst h2; exact h
    · rw [segLoop, if_neg h] at hp
      rcases List.mem_cons.1 hp with h1 | h2
      · subst h1; exact hcur
      · refine ih _ _ ?_ p h2
        intro d hd
        simp at hd; subst hd; rfl

theorem segLoop_head_snd : ∀ (rest cur : List Char) (ty : SegType),
    ((segLoop rest cur ty).head?).map Prod.snd = some ty := by
  intro rest
  induction rest with
  | nil => intro cur ty; simp [segLoop]
  | cons c cs ih =>
    intro cur ty
    by_cases h : charType c = ty
    · rw [segLoop, if_pos h]; exact ih _ _
    · rw [segLoop, if_neg h]; simp

theorem segLoop_chain : ∀ (rest cur : List Char) (ty : SegType),
    List.Chain' (fun a b : Run => a.2 ≠ b.2) (segLoop rest cur ty) := by
  intro rest
  induction rest with
  | nil => intro cur ty; simp [segLoop]
  | cons c cs ih =>
    intro cur ty
    by_cases h : charType c = ty
    · rw [segLoop, if_pos h]; exact ih _ _
    · rw [segLoop, if_neg h]
      refine List.chain'_cons'.2 ⟨?_, ih _ _⟩
      intro b hb
      have hh := segLoop_head_snd cs [c] (charType c)
      rw [hb] at hh
      simp at hh
      rw [hh]
      exact fun he => h he.symm

theorem findIdx_le_length : ∀ (hay sub : List Char) (k : Nat),
    findIdx hay sub = some k → k ≤ hay.length := by
  intro hay
  induction hay with
  | nil =>
    intro sub k h
    by_cases hs : sub = []
    · rw [findIdx, if_pos hs] at h
      simp at h; omega
    · rw [findIdx, if_neg hs] at h
      exact absurd h (by simp)
  | cons c cs ih =>
    intro sub k h
    by_cases ht : (c :: cs).take sub.length = sub
    · rw [findIdx, if_pos ht] at h
      simp at h; omega
    · rw [findIdx, if_neg ht] at h
      simp only [Option.map_eq_some'] at h
      obtain ⟨k', hk', rfl⟩ := h
      have := ih sub k' hk'
      simp; omega

theorem strFind_bounds {hay sub : List Char} {start p : Nat}
    (h : strFind hay sub start = some p) :
    start ≤ p ∧ p ≤ hay.length := by
  by_cases hs : start ≤ hay.length
  · rw [strFind, if_pos hs] at h
    simp only [Option.map_eq_some'] at h
    obtain ⟨k, hk, rfl⟩ := h
    have hle := findIdx_le_length _ _ _ hk
    rw [List.length_drop] at hle
    omega
  · rw [strFind, if_neg hs] at h
    exact absurd h (by simp)

theorem findNext_append : ∀ (pre : List Run) (prefixAcc : List Char)
    (rest : List Run) (target : List Char),
    (∀ r ∈ pre, r.1 ≠ []) →
    target = prefixAcc ++ (pre.map Prod.fst).flatten →
    findNext prefixAcc (pre ++ rest) target
      = findNext (prefixAcc ++ (pre.map Prod.fst).flatten) rest target := by
  intro pre
  induction pre with
  | nil => intro prefixAcc rest target _ htarget; simp
  | cons hd pre' ih =>
    intro prefixAcc rest target hne htarget
    obtain ⟨t, ty⟩ := hd
    have ht : t ≠ [] := hne (t, ty) (List.mem_cons_self _ _)
    have hneq : prefixAcc ≠ target := by
      intro he
      have : target.length = prefixAcc.length + (t.length +
          ((pre'.map Prod.fst).flatten).length) := by
        rw [htarget]; simp
      rw [← he] at this
      have : t.length = 0 := by omega
      exact ht (List.length_eq_zero.1 this)
    rw [List.cons_append, findNext, if_neg hneq]
    rw [ih (prefixAcc ++ t) rest target
      (fun r hr => hne r (List.mem_cons_of_mem _ hr))
      (by rw [htarget]; simp)]
    congr 1
    simp

theorem findNext_none_of_bracket : ∀ (segs : List Run)
    (prefixAcc target : List Char),
    '[' ∈ target → '[' ∉ prefixAcc → (∀ s ∈ segs, '[' ∉ s.1) →
    findNext prefixAcc segs target = none := by
  intro segs
  induction segs with
  | nil => intro prefixAcc target _ _ _; rfl
  | cons hd rest ih =>
    intro prefixAcc target hbr hpre hsegs
    obtain ⟨t, ty⟩ := hd
    have hneq : prefixAcc ≠ target := fun he => hpre (he ▸ hbr)
    rw [findNext, if_neg hneq]
    refine ih _ _ hbr ?_ (fun s hs => hsegs s (List.mem_cons_of_mem _ hs))
    intro hmem
    rcases List.mem_append.1 hmem with h1 | h2
    · exact hpre h1
    · exact hsegs (t, ty) (List.mem_cons_self _ _) h2

theorem stripAux_true_append_of_no_close {r : List Char} (h : ']' ∉ r)
    (rest : List Char) :
    stripAux true (r ++ ']' :: rest) = stripAux false rest := by
  induction r with
  | nil => simp [stripAux]
  | cons d ds ih =>
    have hd : d ≠ ']' := fun he => h (he ▸ List.mem_cons_self _ _)
    rw [List.cons_append]
    simp only [stripAux, if_neg hd]
    exact ih (fun hm => h (List.mem_cons_of_mem _ hm))

theorem stripAux_false_append_of_no_open {t : List Char} (h : '[' ∉ t)
    (rest : List Char) :
    stripAux false (t ++ rest) = t ++ stripAux false rest := by
  induction t with
  | nil => simp
  | cons c cs ih =>
    have hc : c ≠ '[' := fun he => h (he ▸ List.mem_cons_self _ _)
    rw [List.cons_append]
    simp only [stripAux, if_neg hc]
    rw [ih (fun hm => h (List.mem_cons_of_mem _ hm))]
    rfl

theorem stripAnnotations_of_no_open {t : List Char} (h : '[' ∉ t) :
    stripAnnotations t = t := by
  have := stripAux_false_append_of_no_open h []
  simpa [stripAnnotations, stripAux] using this

theorem strip_goodPiece {p t rest : List Char} (h : goodPiece p t) :
    stripAux false (p ++ rest) = t ++ stripAux false rest := by
  rcases h with ⟨rfl, hno⟩ | ⟨r, rfl, hno, hnr⟩
  · exact stripAux_false_append_of_no_open hno rest
  · have he : (t ++ '[' :: (r ++ [']'])) ++ rest
        = t ++ '[' :: (r ++ ']' :: rest) := by simp
    rw [he, stripAux_false_append_of_no_open hno]
    simp [stripAux, stripAux_true_append_of_no_close hnr]

theorem strip_flatten_forall₂ {ps ts : List (List Char)}
    (h : List.Forall₂ goodPiece ps ts) :
    ∀ rest, stripAux false (ps.flatten ++ rest)
      = ts.flatten ++ stripAux false rest := by
  induction h with
  | nil => intro rest; simp
  | cons hpt _ ih =>
    intro rest
    rw [List.flatten_cons, List.append_assoc, strip_goodPiece hpt, ih rest]
    simp

theorem alignLoop_emits (segsAll : List Run) (reading : List Char)
    (hr : ']' ∉ reading) :
    ∀ (rest : List Run) (result : List (List Char)) (pos : Nat),
    (∀ s ∈ rest, '[' ∉ s.1) →
    ∃ Δ, (alignLoop segsAll reading result pos rest).1 = result ++ Δ ∧
      List.Forall₂ goodPiece Δ (rest.map Prod.fst) := by
  intro rest
  induction rest with
  | nil =>
    intro result pos _
    exact ⟨[], by simp [alignLoop], List.Forall₂.nil⟩
  | cons hd rest' ih =>
    intro result pos hseg
    obtain ⟨text, ty⟩ := hd
    have htext : '[' ∉ text := hseg (text, ty) (List.mem_cons_self _ _)
    have hrest : ∀ s ∈ rest', '[' ∉ s.1 :=
      fun s hs => hseg s (List.mem_cons_of_mem _ hs)
    have hdrop : ∀ q : Nat, ']' ∉ reading.drop q :=
      fun q hm => hr (List.mem_of_mem_drop hm)
    have hslice : ∀ q p : Nat, ']' ∉ pySlice reading q p := by
      intro q p hm
      exact hdrop q (List.mem_of_mem_take hm)
    have goodBr : ∀ r : List Char, ']' ∉ r →
        goodPiece (text ++ '[' :: (r ++ [']'])) text :=
      fun r hnr => Or.inr ⟨r, rfl, htext, hnr⟩
    cases ty with
    | KANJI =>
      rcases hfn : findNext [] segsAll result.flatten with _ | nk
      · obtain ⟨Δ', h1, h2⟩ := ih (result ++ [text ++ '[' ::
          (reading.drop pos ++ [']'])]) reading.length hrest
        refine ⟨(text ++ '[' :: (reading.drop pos ++ [']'])) :: Δ', ?_, ?_⟩
        · simp only [alignLoop, hfn, h1]; simp
        · exact List.Forall₂.cons (goodBr _ (hdrop pos)) h2
      · by_cases hnk : nk = []
        · subst hnk
          obtain ⟨Δ', h1, h2⟩ := ih (result ++ [text ++ '[' ::
            (reading.drop pos ++ [']'])]) reading.length hrest
          refine ⟨(text ++ '[' :: (reading.drop pos ++ [']'])) :: Δ', ?_, ?_⟩
          · simp [alignLoop, hfn, h1]
          · exact List.Forall₂.cons (goodBr _ (hdrop pos)) h2
        · rcases hp : strFind reading (to_hiragana nk) pos with _ | p
          · obtain ⟨Δ', h1, h2⟩ := ih (result ++ [text ++ '[' ::
              (reading.drop pos ++ [']'])]) reading.length hrest
            refine ⟨(text ++ '[' :: (reading.drop pos ++ [']'])) :: Δ', ?_, ?_⟩
            · simp only [alignLoop, hfn, if_neg hnk, hp, h1]; simp
            · exact List.Forall₂.cons (goodBr _ (hdrop pos)) h2
          · obtain ⟨Δ', h1, h2⟩ := ih (result ++ [text ++ '[' ::
              (pySlice reading pos p ++ [']'])]) p hrest
            refine ⟨(text ++ '[' :: (pySlice reading pos p ++ [']'])) :: Δ', ?_, ?_⟩
            · simp only [alignLoop, hfn, if_neg hnk, hp, h1]; simp
            · exact List.Forall₂.cons (goodBr _ (hslice pos p)) h2
    | KANA =>
      by_cases hps : pySlice reading pos (pos + (to_hiragana text).length)
          = to_hiragana text
      · obtain ⟨Δ', h1, h2⟩ := ih (result ++ [text])
          (pos + (to_hiragana text).length) hrest
        refine ⟨text :: Δ', ?_, ?_⟩
        · simp only [alignLoop, if_pos hps, h1]; simp
        · exact List.Forall₂.cons (Or.inl ⟨rfl, htext⟩) h2
      · obtain ⟨Δ', h1, h2⟩ := ih (result ++ [text]) pos hrest
        refine ⟨text :: Δ', ?_, ?_⟩
        · simp only [alignLoop, if_neg hps, h1]; simp
        · exact List.Forall₂.cons (Or.inl ⟨rfl, htext⟩) h2
    | OTHER =>
      obtain ⟨Δ', h1, h2⟩ := ih (result ++ [text]) pos hrest
      refine ⟨text :: Δ', ?_, ?_⟩
      · simp only [alignLoop, h1]; simp
      · exact List.Forall₂.cons (Or.inl ⟨rfl, htext⟩) h2

theorem alignLoopE_eq (segsAll : List Run) (reading : List Char) :
    ∀ (rest : List Run) (result : List (List Char)) (pos : Nat),
    pos ≤ reading.length →
    alignLoopE segsAll reading result pos rest
      = Except.ok (alignLoop segsAll reading result pos rest) := by
  intro rest
  induction rest with
  | nil => intro result pos _; simp [alignLoopE, alignLoop]
  | cons hd rest' ih =>
    intro result pos hpos
    obtain ⟨text, ty⟩ := hd
    cases ty with
    | KANJI =>
      rcases hfn : findNext [] segsAll result.flatten with _ | nk
      · simp only [alignLoopE, alignLoop, hfn, dropE, if_pos hpos]
        exact ih _ reading.length (Nat.le_refl _)
      · by_cases hnk : nk = []
        · subst hnk
          simp only [alignLoopE, alignLoop, hfn, dropE, if_pos hpos,
            if_pos rfl]
          exact ih _ reading.length (Nat.le_refl _)
        · rcases hp : strFind reading (to_hiragana nk) pos with _ | p
          · simp only [alignLoopE, alignLoop, hfn, if_neg hnk, hp, dropE,
              if_pos hpos]
            exact ih _ reading.length (Nat.le_refl _)
          · have hple : p ≤ reading.length := (strFind_bounds hp).2
            simp only [alignLoopE, alignLoop, hfn, if_neg hnk, hp, sliceE,
              if_pos hpos, pySlice]
            exact ih _ p hple
    | KANA =>
      by_cases hps : pySlice reading pos (pos + (to_hiragana text).length)
          = to_hiragana text
      · have hk : pos + (to_hiragana text).length ≤ reading.length := by
          have hlen := congrArg List.length hps
          have h2 : (List.take (pos + (to_hiragana text).length - pos)
              (List.drop pos reading)).length
              ≤ (List.drop pos reading).length := by
            rw [List.length_take]
            exact min_le_right _ _
          rw [pySlice] at hlen
          rw [hlen, List.length_drop] at h2
          omega
        simp only [alignLoopE, alignLoop, sliceE, if_pos hpos, pySlice] at *
        rw [if_pos hps, if_pos hps]
        exact ih _ _ hk
      · simp only [alignLoopE, alignLoop, sliceE, if_pos hpos, pySlice] at *
        rw [if_neg hps, if_neg hps]
        exact ih _ _ hpos
    | OTHER =>
      simp only [alignLoopE, alignLoop]
      exact ih _ _ hpos

theorem mem_segment_ne_nil {s : List Char} {p : Run}
    (hp : p ∈ segment_surface s) : p.1 ≠ [] := by
  cases s with
  | nil => simp [segment_surface] at hp
  | cons c cs =>
    exact segLoop_ne_nil cs [c] (charType c) (by simp) p hp

theorem mem_segment_types {s : List Char} {p : Run}
    (hp : p ∈ segment_surface s) : ∀ c ∈ p.1, charType c = p.2 := by
  cases s with
  | nil => simp [segment_surface] at hp
  | cons c cs =>
    exact segLoop_types cs [c] (charType c) (by simp) p hp

theorem mem_of_mem_segment {s : List Char} {p : Run} {c : Char}
    (hp : p ∈ segment_surface s) (hc : c ∈ p.1) : c ∈ s := by
  have hmem : c ∈ ((segment_surface s).map Prod.fst).flatten :=
    List.mem_flatten.2 ⟨p.1, List.mem_map_of_mem _ hp, hc⟩
  rwa [segment_surface_flatten] at hmem

/-- C8: for every reading and flag, `align_furigana "" reading flag = ""`,
and for every surface and flag, `align_furigana surface "" flag = surface`
(the empty-input identities of the precondition check). -/
theorem align_furigana_empty_identity (s r : List Char) (f : Bool) :
    align_furigana [] r f = [] ∧ align_furigana s [] f = s := by
  constructor
  · simp [align_furigana]
  · simp [align_furigana]

/-- C10: `to_hiragana` is idempotent; it is the identity on any string with
no katakana (subset-B, 30A0–30FF) character; and character-wise it maps each
katakana character to its code point minus 0x60 and fixes every other
character. -/
theorem to_hiragana_idempotent_shift (x : List Char) :
    to_hiragana (to_hiragana x) = to_hiragana x ∧
    ((∀ c ∈ x, is_katakana c = false) → to_hiragana x = x) ∧
    (∀ c ∈ x,
      (is_katakana c = true → (to_hiragana_char c).toNat = c.toNat - 0x60) ∧
      (is_katakana c = false → to_hiragana_char c = c)) := by
  refine ⟨?_, ?_, ?_⟩
  · simp [to_hiragana, List.map_map, Function.comp_def, to_hiragana_char_idem]
  · intro h
    rw [to_hiragana]
    induction x with
    | nil => rfl
    | cons c cs ih =>
      rw [List.map_cons,
        to_hiragana_char_of_not_katakana (h c (List.mem_cons_self _ _)),
        ih (fun d hd => h d (List.mem_cons_of_mem _ hd))]
  · intro c _
    exact ⟨fun hk => to_hiragana_char_toNat_of_katakana hk,
      fun hk => to_hiragana_char_of_not_katakana hk⟩

/-- Witness for C10 at a concrete string: `"あx"` contains no katakana and is
fixed by `to_hiragana`. -/
theorem to_hiragana_idempotent_shift_witness :
    (∀ c ∈ ['あ', 'x'], is_katakana c = false) ∧
    to_hiragana ['あ', 'x'] = ['あ', 'x'] :=
  ⟨by decide, (to_hiragana_idempotent_shift ['あ', 'x']).2.1 (by decide)⟩

/-- C6: a nonempty surface whose segmentation is a single KANJI run, with a
nonempty reading, is emitted whole followed by the entire normalized reading
in brackets, for either flag value. -/
theorem align_furigana_single_kanji (s r t : List Char) (f : Bool)
    (hs : s ≠ []) (hr : r ≠ [])
    (hseg : segment_surface s = [(t, SegType.KANJI)]) :
    align_furigana s r f = s ++ '[' :: (to_hiragana r ++ [']']) := by
  cases f <;> simp [align_furigana, hs, hr, hseg, singleKanjiRun]

/-- Witness for C6: `align("天気", "てんき", false) = "天気[てんき]"`. -/
theorem align_furigana_single_kanji_witness :
    ("天気".data ≠ [] ∧ "てんき".data ≠ [] ∧
      segment_surface "天気".data = [("天気".data, SegType.KANJI)]) ∧
    align_furigana "天気".data "てんき".data false
      = "天気".data ++ '[' :: (to_hiragana "てんき".data ++ [']']) :=
  ⟨⟨by decide, by decide, by decide⟩,
    align_furigana_single_kanji "天気".data "てんき".data "天気".data false
      (by decide) (by decide) (by decide)⟩

/-- C7: if every character of the surface is SYLLABARY or OTHER (no
ideograph), `align_furigana` with a nonempty reading and flag `false`
returns the surface unchanged. -/
theorem align_furigana_all_kana (s r : List Char)
    (hs : ∀ c ∈ s, charType c = SegType.KANA ∨ charType c = SegType.OTHER)
    (hr : r ≠ []) :
    align_furigana s r false = s := by
  by_cases hempty : s = []
  · subst hempty; simp [align_furigana]
  · have hall : (segment_surface s).all
        (fun seg => decide (seg.2 = SegType.KANA ∨ seg.2 = SegType.OTHER))
        = true := by
      rw [List.all_eq_true]
      intro seg hseg
      rw [decide_eq_true_eq]
      have hne := mem_segment_ne_nil hseg
      cases hsd : seg.1 with
      | nil => exact absurd hsd hne
      | cons c0 cs0 =>
        have hc0 : c0 ∈ seg.1 := by
          rw [hsd]; exact List.mem_cons_self _ _
        have h1 := mem_segment_types hseg c0 hc0
        have h2 := hs c0 (mem_of_mem_segment hseg hc0)
        rw [h1] at h2
        exact h2
    have h0 : ¬(s = [] ∨ r = []) := by simp [hempty, hr]
    rw [align_furigana, if_neg h0]
    dsimp only
    rw [hall, if_pos rfl]

/-- Witness for C7: `align("たべる", "たべる", false) = "たべる"`. -/
theorem align_furigana_all_kana_witness :
    (∀ c ∈ "たべる".data,
      charType c = SegType.KANA ∨ charType c = SegType.OTHER) ∧
    align_furigana "たべる".data "たべる".data false = "たべる".data :=
  ⟨by decide, align_furigana_all_kana _ _ (by decide) (by decide)⟩

/-- C5: segmentation is a lossless partition: the run texts concatenate back
to the input, the empty string yields no runs, adjacent runs have different
categories, no run is empty, and every character of a run has the run's
category. -/
theorem segment_surface_partition (s : List Char) :
    ((segment_surface s).map Prod.fst).flatten = s ∧
    (s = [] → segment_surface s = []) ∧
    List.Chain' (fun a b : Run => a.2 ≠ b.2) (segment_surface s) ∧
    (∀ p ∈ segment_surface s, p.1 ≠ [] ∧ ∀ c ∈ p.1, charType c = p.2) := by
  refine ⟨segment_surface_flatten s, ?_, ?_, ?_⟩
  · intro h; subst h; rfl
  · cases s with
    | nil => simp [segment_surface]
    | cons c cs => exact segLoop_chain cs [c] (charType c)
  · intro p hp
    exact ⟨mem_segment_ne_nil hp, mem_segment_types hp⟩

/-- Witness for C5 at a concrete surface and run. -/
theorem segment_surface_partition_witness :
    (['食'], SegType.KANJI) ∈ segment_surface "食べる".data ∧
    ((['食'] : List Char) ≠ [] ∧
      ∀ c ∈ (['食'] : List Char), charType c = SegType.KANJI) :=
  ⟨by decide, (segment_surface_partition "食べる".data).2.2.2
    (['食'], SegType.KANJI) (by decide)⟩

/-- C9: in the general-case loop, a SYLLABARY run whose normalized text is a
prefix of the (normalized) reading at the cursor is emitted verbatim and the
cursor advances by the matched length; on a mismatch the run is still
emitted verbatim and the cursor stays put. -/
theorem alignLoop_kana_step (segsAll : List Run) (reading : List Char)
    (result : List (List Char)) (pos : Nat) (text : List Char)
    (rest : List Run) :
    ((reading.drop pos).take (to_hiragana text).length = to_hiragana text →
      alignLoop segsAll reading result pos ((text, SegType.KANA) :: rest)
        = alignLoop segsAll reading (result ++ [text])
            (pos + (to_hiragana text).length) rest) ∧
    ((reading.drop pos).take (to_hiragana text).length ≠ to_hiragana text →
      alignLoop segsAll reading result pos ((text, SegType.KANA) :: rest)
        = alignLoop segsAll reading (result ++ [text]) pos rest) := by
  have hslice : pySlice reading pos (pos + (to_hiragana text).length)
      = (reading.drop pos).take (to_hiragana text).length := by
    rw [pySlice, Nat.add_sub_cancel_left]
  constructor
  · intro h
    simp only [alignLoop, hslice, if_pos h]
  · intro h
    simp only [alignLoop, hslice, if_neg h]

/-- Witness for C9's match case at a concrete state: surface kana `べる`
matches the reading `たべる` at cursor 1. -/
theorem alignLoop_kana_step_witness :
    ("たべる".data.drop 1).take (to_hiragana "べる".data).length
      = to_hiragana "べる".data ∧
    alignLoop [] "たべる".data [['食']] 1 [("べる".data, SegType.KANA)]
      = alignLoop [] "たべる".data [['食'], "べる".data]
          (1 + (to_hiragana "べる".data).length) [] :=
  ⟨by decide,
    (alignLoop_kana_step [] "たべる".data [['食']] 1 "べる".data []).1
      (by decide)⟩

/-- C3: in the general-case loop over a bracket-free surface, once the
emitted output contains a bracket (some IDEOGRAPH run has been emitted), the
position-reconstruction look-ahead never matches again, so every later
IDEOGRAPH run is assigned the whole remaining reading and the cursor jumps
to the end of the reading, regardless of what follows. -/
theorem alignLoop_kanji_after_bracket (segsAll : List Run)
    (reading : List Char) (result : List (List Char)) (pos : Nat)
    (ktext : List Char) (rest : List Run)
    (hbr : '[' ∈ result.flatten) (hseg : ∀ s ∈ segsAll, '[' ∉ s.1) :
    alignLoop segsAll reading result pos ((ktext, SegType.KANJI) :: rest)
      = alignLoop segsAll reading
          (result ++ [ktext ++ '[' :: (reading.drop pos ++ [']'])])
          reading.length rest := by
  have hfn : findNext [] segsAll result.flatten = none :=
    findNext_none_of_bracket segsAll [] result.flatten hbr (by simp) hseg
  simp only [alignLoop, hfn]

/-- Witness for C3 at the state reached after emitting `買[か]い` while
aligning `買い買い` against `かいかい`: the second KANJI run swallows all
remaining reading even though a KANA run follows. -/
theorem alignLoop_kanji_after_bracket_witness :
    ('[' ∈ (["買[か]".data, "い".data] : List (List Char)).flatten ∧
      ∀ s ∈ segment_surface "買い買い".data, '[' ∉ s.1) ∧
    alignLoop (segment_surface "買い買い".data) "かいかい".data
        ["買[か]".data, "い".data] 2 [("買".data, SegType.KANJI),
          ("い".data, SegType.KANA)]
      = alignLoop (segment_surface "買い買い".data) "かいかい".data
          (["買[か]".data, "い".data] ++
            ["買".data ++ '[' :: ("かいかい".data.drop 2 ++ [']'])])
          "かいかい".data.length [("い".data, SegType.KANA)] :=
  ⟨⟨by decide, by decide⟩,
    alignLoop_kanji_after_bracket _ _ _ 2 _ _ (by decide) (by decide)⟩

/-- C2 counterexample: on surface `買い買い` with reading `かいかい`, the
code's second IDEOGRAPH run swallows the whole remaining reading
(`買[かい]`) instead of stopping at the next occurrence of the following
SYLLABARY run's text as the spec's general-case rule dictates (`買[か]`), so
the code's output differs from the spec-described alignment. -/
theorem align_furigana_lookahead_counterexample :
    align_furigana "買い買い".data "かいかい".data false
      = "買[か]い買[かい]い".data ∧
    align_furigana_spec "買い買い".data "かいかい".data false
      = "買[か]い買[か]い".data ∧
    align_furigana "買い買い".data "かいかい".data false
      ≠ align_furigana_spec "買い買い".data "かいかい".data false :=
  ⟨by decide, by decide, by decide⟩

/-- C2 (amended): the spec's look-ahead rule holds exactly for an IDEOGRAPH
run processed while the accumulated output equals the concatenation of the
texts of the runs before it (true for the first IDEOGRAPH run of a
bracket-free surface, false for later ones once a bracket has been
emitted): when the immediately following run is SYLLABARY with nonempty
text whose normalized form occurs in the reading at position `p ≥ cursor`,
the run is assigned `reading[cursor:p]` and the cursor advances to exactly
`p`. -/
theorem alignLoop_kanji_lookahead (reading : List Char) (pre : List Run)
    (result : List (List Char)) (pos p : Nat) (ktext ntext : List Char)
    (rest : List Run)
    (hpre : ∀ r ∈ pre, r.1 ≠ [])
    (hres : result.flatten = (pre.map Prod.fst).flatten)
    (hn : ntext ≠ [])
    (hp : strFind reading (to_hiragana ntext) pos = some p) :
    alignLoop
        (pre ++ (ktext, SegType.KANJI) :: (ntext, SegType.KANA) :: rest)
        reading result pos
        ((ktext, SegType.KANJI) :: (ntext, SegType.KANA) :: rest)
      = alignLoop
          (pre ++ (ktext, SegType.KANJI) :: (ntext, SegType.KANA) :: rest)
          reading
          (result ++ [ktext ++ '[' :: (pySlice reading pos p ++ [']'])])
          p ((ntext, SegType.KANA) :: rest) := by
  have hfn : findNext []
      (pre ++ (ktext, SegType.KANJI) :: (ntext, SegType.KANA) :: rest)
      result.flatten = some ntext := by
    rw [findNext_append pre [] _ result.flatten hpre (by simpa using hres)]
    rw [findNext, if_pos (by simpa using hres.symm)]
    rfl
  simp only [alignLoop, hfn, if_neg hn, hp]

/-- Witness for the amended C2 at the first IDEOGRAPH run of `買い買い`
against `かいかい`: the following kana `い` is found at position 1, so the
run is assigned `か` and the cursor moves to 1. -/
theorem alignLoop_kanji_lookahead_witness :
    ((∀ r ∈ ([] : List Run), r.1 ≠ []) ∧
      ("い".data ≠ []) ∧
      strFind "かいかい".data (to_hiragana "い".data) 0 = some 1) ∧
    alignLoop
        ([] ++ ("買".data, SegType.KANJI) :: ("い".data, SegType.KANA) ::
          [("買".data, SegType.KANJI), ("い".data, SegType.KANA)])
        "かいかい".data [] 0
        (("買".data, SegType.KANJI) :: ("い".data, SegType.KANA) ::
          [("買".data, SegType.KANJI), ("い".data, SegType.KANA)])
      = alignLoop
          ([] ++ ("買".data, SegType.KANJI) :: ("い".data, SegType.KANA) ::
            [("買".data, SegType.KANJI), ("い".data, SegType.KANA)])
          "かいかい".data
          ([] ++ ["買".data ++ '[' :: (pySlice "かいかい".data 0 1 ++ [']'])])
          1 (("い".data, SegType.KANA) ::
            [("買".data, SegType.KANJI), ("い".data, SegType.KANA)]) :=
  ⟨⟨by decide, by decide, by decide⟩,
    alignLoop_kanji_lookahead "かいかい".data [] [] 0 1 "買".data "い".data
      [("買".data, SegType.KANJI), ("い".data, SegType.KANA)]
      (by decide) (by decide) (by decide) (by decide)⟩

/-- C1 counterexample: a surface that itself contains a bracket pair is
returned unchanged (all-OTHER short-circuit), and stripping the `[...]`
annotation then removes surface text: the round-trip fails. -/
theorem align_furigana_roundTrip_counterexample :
    align_furigana "[]".data "あ".data false = "[]".data ∧
    stripAnnotations (align_furigana "[]".data "あ".data false) = [] ∧
    ([] : List Char) ≠ "[]".data :=
  ⟨by decide, by decide, by decide⟩

/-- C1 (amended): for every surface containing no `'['` and every reading
containing no `']'`, stripping all `[...]` annotations from the output of
`align_furigana` yields exactly the surface, for either flag value. -/
theorem align_furigana_roundTrip (surface reading0 : List Char) (f : Bool)
    (hs : '[' ∉ surface) (hr : ']' ∉ reading0) :
    stripAnnotations (align_furigana surface reading0 f) = surface := by
  have hrn : ']' ∉ to_hiragana reading0 := fun hm =>
    hr (mem_of_mem_to_hiragana_of_not_hiragana hm (by decide))
  have hbody : stripAnnotations
      (surface ++ '[' :: (to_hiragana reading0 ++ [']'])) = surface := by
    rw [stripAnnotations, stripAux_false_append_of_no_open hs]
    simp only [stripAux, if_pos rfl]
    have he : to_hiragana reading0 ++ [']']
        = to_hiragana reading0 ++ ']' :: [] := rfl
    rw [he, stripAux_true_append_of_no_close hrn]
    simp [stripAux]
  by_cases h0 : surface = [] ∨ reading0 = []
  · rw [align_furigana, if_pos h0]
    exact stripAnnotations_of_no_open hs
  · rw [align_furigana, if_neg h0]
    dsimp only
    by_cases hall : (segment_surface surface).all
        (fun seg => decide (seg.2 = SegType.KANA ∨ seg.2 = SegType.OTHER))
        = true
    · rw [hall, if_pos rfl]
      exact stripAnnotations_of_no_open hs
    · rw [if_neg hall]
      by_cases hsk : singleKanjiRun (segment_surface surface) = true
      · cases f
        · rw [if_neg (by simp), if_pos hsk]
          exact hbody
        · rw [if_pos (by simp [hsk])]
          exact hbody
      · rw [if_neg (by simp [hsk]), if_neg hsk]
        obtain ⟨Δ, hΔ, hforall⟩ := alignLoop_emits (segment_surface surface)
          (to_hiragana reading0) hrn (segment_surface surface) [] 0
          (fun p hp hm => hs (mem_of_mem_segment hp hm))
        have hkey := strip_flatten_forall₂ hforall []
        rw [List.append_nil] at hkey
        rw [stripAnnotations, hΔ, List.nil_append, hkey]
        simp [stripAux, segment_surface_flatten]

/-- Witness for C1 (amended): `食べる`/`たべる` round-trips. -/
theorem align_furigana_roundTrip_witness :
    ('[' ∉ "食べる".data ∧ ']' ∉ "たべる".data) ∧
    stripAnnotations (align_furigana "食べる".data "たべる".data false)
      = "食べる".data :=
  ⟨⟨by decide, by decide⟩,
    align_furigana_roundTrip "食べる".data "たべる".data false
      (by decide) (by decide)⟩

/-- C4: totality / fail-closed.  The bounds-checked variant of the aligner
(every slice of the reading must start inside the reading) never reports an
error and agrees with the plain embedding on every input, surface and
reading arbitrary, including malformed pairs. -/
theorem align_furiganaE_ok (s r : List Char) (f : Bool) :
    align_furiganaE s r f = Except.ok (align_furigana s r f) := by
  by_cases h0 : s = [] ∨ r = []
  · rw [align_furiganaE, align_furigana, if_pos h0, if_pos h0]
  · rw [align_furiganaE, align_furigana, if_neg h0, if_neg h0]
    dsimp only
    by_cases hall : (segment_surface s).all
        (fun seg => decide (seg.2 = SegType.KANA ∨ seg.2 = SegType.OTHER))
        = true
    · rw [hall, if_pos rfl, if_pos rfl]
    · rw [if_neg hall, if_neg hall]
      by_cases hj : (f && singleKanjiRun (segment_surface s)) = true
      · rw [if_pos hj, if_pos hj]
      · rw [if_neg hj, if_neg hj]
        by_cases hsk : singleKanjiRun (segment_surface s) = true
        · rw [if_pos hsk, if_pos hsk]
        · rw [if_neg hsk, if_neg hsk]
          rw [alignLoopE_eq (segment_surface s) (to_hiragana r)
            (segment_surface s) [] 0 (Nat.zero_le _)]
